import Mathlib

/-!
Verification of the matrix-operations-app numeric core and line parser.

The Python source (matrix_operations.py) operates on NumPy 2-D arrays of
IEEE-754 doubles.  We model matrices exactly over ℚ: a matrix is a pair of
dimensions together with a total entry function `ℕ → ℕ → ℚ` (values outside
the dimensions are irrelevant junk).  Operations that can raise `ValueError`
in Python return `Except MatError Mat`; the `print`ed ill-conditioning
warning of `invert_matrix` is modelled as a list of emitted warnings.
-/

/-- A dense 2-D matrix: `rows × cols`, entries given by a total function
(positions outside the bounds are unspecified junk, as in NumPy a `shape`
always accompanies the data buffer). -/
structure Mat where
  rows : ℕ
  cols : ℕ
  entry : ℕ → ℕ → ℚ

/-- The `(rows, cols)` shape of a matrix, as `A.shape` in NumPy. -/
def Mat.shape (A : Mat) : ℕ × ℕ := (A.rows, A.cols)

/-- The error taxonomy of the numeric layer: each `ValueError` raised by the
source, classified as in the specification. -/
inductive MatError where
  | shapeMismatch
  | innerDimensionMismatch
  | notSquare
  | singularMatrix
deriving DecidableEq, Repr

/-- Build a matrix from a rectangular list of rows (as `np.array` does for the
demo inputs); out-of-range entries are 0. -/
def matOfList (l : List (List ℚ)) : Mat :=
  ⟨l.length, (l.headD []).length, fun i j => ((l.getD i []).getD j 0)⟩

/-- Bounded extensional equality of matrices: same shape and same entries at
all in-range positions (NumPy array equality). -/
def matEqP (A B : Mat) : Prop :=
  A.rows = B.rows ∧ A.cols = B.cols ∧
    ∀ i < A.rows, ∀ j < A.cols, A.entry i j = B.entry i j

/-- Source function `add_matrices`: shape check, then element-wise sum. -/
def add_matrices (A B : Mat) : Except MatError Mat :=
  if A.shape = B.shape then
    .ok ⟨A.rows, A.cols, fun i j => A.entry i j + B.entry i j⟩
  else
    .error .shapeMismatch

/-- Source function `sub_matrices`: shape check, then element-wise difference. -/
def sub_matrices (A B : Mat) : Except MatError Mat :=
  if A.shape = B.shape then
    .ok ⟨A.rows, A.cols, fun i j => A.entry i j - B.entry i j⟩
  else
    .error .shapeMismatch

/-- Source function `mul_matrices`: inner-dimension check
(`A.shape[1] == B.shape[0]`), then the dot product `A.dot(B)`. -/
def mul_matrices (A B : Mat) : Except MatError Mat :=
  if A.cols = B.rows then
    .ok ⟨A.rows, B.cols, fun i j =>
      ∑ k ∈ Finset.range A.cols, A.entry i k * B.entry k j⟩
  else
    .error .innerDimensionMismatch

/-- The demo matrix `A = [[1,2],[3,4]]` from `main`. -/
def demoA : Mat := matOfList [[1, 2], [3, 4]]

/-- The demo matrix `B = [[5,6],[7,8]]` from `main`. -/
def demoB : Mat := matOfList [[5, 6], [7, 8]]

/-- View of a matrix as a square Mathlib matrix of size `rows`
(meaningful when `rows = cols`, the only situation in which it is used). -/
def toSq (A : Mat) : Matrix (Fin A.rows) (Fin A.rows) ℚ := fun i j => A.entry i j

/-- Determinant by Laplace expansion along the first row: an executable form
of the determinant computed by the dense linear-algebra backend. -/
def detExp : (n : ℕ) → Matrix (Fin n) (Fin n) ℚ → ℚ
  | 0, _ => 1
  | n + 1, M =>
    ∑ j : Fin (n + 1), (-1) ^ (j : ℕ) * M 0 j * detExp n (M.submatrix Fin.succ j.succAbove)

/-- Executable adjugate, entrywise by Cramer determinants. -/
def adjExp {n : ℕ} (M : Matrix (Fin n) (Fin n) ℚ) : Matrix (Fin n) (Fin n) ℚ :=
  fun i j => detExp n (M.updateRow j (Pi.single i 1))

/-- Exact-arithmetic model of `np.linalg.inv` on a nonsingular input:
the inverse `det⁻¹ • adjugate` (equal to the unique two-sided inverse). -/
def invSq {n : ℕ} (M : Matrix (Fin n) (Fin n) ℚ) : Matrix (Fin n) (Fin n) ℚ :=
  (detExp n M)⁻¹ • adjExp M

/-- Maximum-absolute-row-sum norm, used to build an exact condition number. -/
def normInf {n : ℕ} (M : Matrix (Fin n) (Fin n) ℚ) : ℚ :=
  ((List.finRange n).map fun i => ((List.finRange n).map fun j => |M i j|).sum).foldr max 0

/-- Exact-arithmetic model of `np.linalg.cond`: infinite (`⊤`) exactly on
singular matrices (where the smallest singular value is zero), and otherwise
the finite product of the norms of the matrix and its inverse.  NumPy uses the
2-norm from an SVD; the model uses the max-row-sum norm, which keeps the value
rational — no claim depends on the value of the finite case. -/
def npCond {n : ℕ} (M : Matrix (Fin n) (Fin n) ℚ) : WithTop ℚ :=
  if detExp n M = 0 then ⊤ else ↑(normInf M * normInf (invSq M))

/-- Warnings the numeric layer can print to the output channel. -/
inductive Warning where
  | illConditioned
deriving DecidableEq, Repr

/-- Payload `np.linalg.inv(A)` of `invert_matrix` on a square nonsingular
input, as a `Mat` (entries of `invSq` within bounds, junk outside). -/
def invResult (A : Mat) : Mat :=
  ⟨A.rows, A.rows, fun i j =>
    if h : i < A.rows ∧ j < A.rows then invSq (toSq A) ⟨i, h.1⟩ ⟨j, h.2⟩ else 0⟩

/-- Source function `invert_matrix`: square check (else `NotSquare`), condition
number estimate with a printed warning when it exceeds `1e12`, then inversion,
which fails with `SingularMatrix` exactly when the backend decomposition finds
the matrix singular (exact-arithmetic model: zero determinant).  The printed
warnings are returned alongside the result. -/
def invert_matrix (A : Mat) : List Warning × Except MatError Mat :=
  if A.rows = A.cols then
    let warns :=
      if ((10 ^ 12 : ℚ) : WithTop ℚ) < npCond (toSq A) then [Warning.illConditioned] else []
    if detExp A.rows (toSq A) = 0 then
      (warns, .error .singularMatrix)
    else
      (warns, .ok (invResult A))
  else ([], .error .notSquare)

/-- Python `str` whitespace, the separator set of `str.split()` with no
argument (space, tab, line feed, carriage return, vertical tab, form feed). -/
def pyIsSpace (c : Char) : Bool :=
  c = ' ' || c = '\t' || c = '\n' || c = '\r' || c = '\x0b' || c = '\x0c'

/-- Accumulator loop behind `pySplit`: collects the current token in reverse
in `acc`, closing it at each separator, and drops empty tokens. -/
def pySplitAux (p : Char → Bool) : List Char → List Char → List (List Char)
  | [], acc => if acc = [] then [] else [acc.reverse]
  | c :: rest, acc =>
    if p c then
      if acc = [] then pySplitAux p rest []
      else acc.reverse :: pySplitAux p rest []
    else pySplitAux p rest (c :: acc)

/-- Model of Python `str.split` with separator predicate `p`: maximal runs of
non-separator characters, in order, with no empty tokens. -/
def pySplit (p : Char → Bool) (s : List Char) : List (List Char) :=
  pySplitAux p s []

/-- Value of a list of decimal digit characters, most significant first. -/
def natOfDigits (l : List Char) : ℕ :=
  l.foldl (fun a c => 10 * a + (c.toNat - 48)) 0

/-- Leading optional sign of a numeric token, and the rest of the token. -/
def splitSign : List Char → ℚ × List Char
  | '+' :: r => (1, r)
  | '-' :: r => (-1, r)
  | r => (1, r)

/-- Model of the Python builtin `float(str)` on a token: an optional sign,
a decimal mantissa (digits, optionally with a decimal point, at least one
digit overall), and an optional decimal exponent; `none` when the token is
not of this form (where Python raises `ValueError`).  The special values
`inf`/`nan` and underscore digit separators accepted by CPython are outside
this exact rational model. -/
def pyFloat? (t : List Char) : Option ℚ :=
  let sp := splitSign t
  let ip := sp.2.takeWhile Char.isDigit
  let s2 := sp.2.dropWhile Char.isDigit
  let fr : List Char × List Char :=
    match s2 with
    | '.' :: r => (r.takeWhile Char.isDigit, r.dropWhile Char.isDigit)
    | _ => ([], s2)
  if ip = [] ∧ fr.1 = [] then none
  else
    let mant : ℚ := (natOfDigits ip : ℚ) + (natOfDigits fr.1 : ℚ) / 10 ^ fr.1.length
    match fr.2 with
    | [] => some (sp.1 * mant)
    | e :: r =>
      if e = 'e' ∨ e = 'E' then
        let esp : ℤ × List Char :=
          match r with
          | '+' :: rr => (1, rr)
          | '-' :: rr => (-1, rr)
          | rr => (1, rr)
        let ed := esp.2.takeWhile Char.isDigit
        let rest := esp.2.dropWhile Char.isDigit
        if ed ≠ [] ∧ rest = [] then
          some (sp.1 * mant * (10 : ℚ) ^ (esp.1 * (natOfDigits ed : ℤ)))
        else none
      else none

/-- Source function `parse_numbers_from_line`: replace commas with spaces,
split on whitespace, and accumulate `float(p)` for each token, silently
skipping the tokens where `float` raises. -/
def parse_numbers_from_line (line : List Char) : List ℚ :=
  (pySplit pyIsSpace (line.map fun c => if c = ',' then ' ' else c)).foldl
    (fun nums p =>
      match pyFloat? p with
      | some x => nums ++ [x]
      | none => nums) []

/-- Auxiliary matrices used as concrete instances in witnesses. -/
def badB : Mat := matOfList [[1], [2], [3]]

/-- A concrete exactly singular square matrix. -/
def singularM : Mat := matOfList [[1, 1], [1, 1]]

/-- Separator predicate written from the specification sentence "splits on
whitespace and commas", for the refinement half of the parsing claim: the
source instead replaces commas by spaces and then splits on whitespace. -/
def specSplitSep (c : Char) : Bool := c == ',' || pyIsSpace c

theorem detExp_eq (n : ℕ) (M : Matrix (Fin n) (Fin n) ℚ) : detExp n M = M.det := by
  induction n with
  | zero => simp [detExp]
  | succ n ih =>
    rw [Matrix.det_succ_row_zero]
    simp only [detExp, ih]

theorem adjExp_eq {n : ℕ} (M : Matrix (Fin n) (Fin n) ℚ) : adjExp M = M.adjugate := by
  funext i j
  rw [adjExp, detExp_eq, Matrix.adjugate_apply]

theorem mul_invSq {n : ℕ} (M : Matrix (Fin n) (Fin n) ℚ)
    (h : detExp n M ≠ 0) : M * invSq M = 1 := by
  rw [detExp_eq] at h
  rw [invSq, detExp_eq, adjExp_eq, Matrix.mul_smul, Matrix.mul_adjugate, smul_smul,
    inv_mul_cancel₀ h, one_smul]

/-- C1: if the inner dimensions agree (`A.cols = B.rows`), `mul_matrices`
returns a matrix of shape `(A.rows, B.cols)` whose `(i,j)` entry is
`Σ_k A[i][k]·B[k][j]`; otherwise it fails with `InnerDimensionMismatch`. -/
theorem mul_matrices_spec (A B : Mat) :
    (A.cols = B.rows →
      ∃ C, mul_matrices A B = .ok C ∧ C.rows = A.rows ∧ C.cols = B.cols ∧
        ∀ i j, C.entry i j = ∑ k ∈ Finset.range A.cols, A.entry i k * B.entry k j) ∧
    (A.cols ≠ B.rows → mul_matrices A B = .error .innerDimensionMismatch) := by
  constructor
  · intro h
    exact ⟨⟨A.rows, B.cols, fun i j => ∑ k ∈ Finset.range A.cols, A.entry i k * B.entry k j⟩,
      by simp [mul_matrices, h], rfl, rfl, fun i j => rfl⟩
  · intro h
    simp [mul_matrices, h]

/-- Witness for C1: both branches at concrete inputs (compatible demo pair,
and a 2×2 by 3×1 mismatch). -/
theorem mul_matrices_spec_witness :
    (∃ C, mul_matrices demoA demoB = .ok C ∧ C.rows = demoA.rows ∧ C.cols = demoB.cols ∧
      ∀ i j, C.entry i j = ∑ k ∈ Finset.range demoA.cols, demoA.entry i k * demoB.entry k j) ∧
    mul_matrices demoA badB = .error .innerDimensionMismatch :=
  ⟨(mul_matrices_spec demoA demoB).1 (by decide),
   (mul_matrices_spec demoA badB).2 (by decide)⟩

/-- C2: `add_matrices` and `sub_matrices` succeed exactly on equal shapes,
returning the element-wise sum (resp. difference `A - B`) of the same shape,
and fail with `ShapeMismatch` on differing shapes. -/
theorem add_sub_matrices_spec (A B : Mat) :
    (A.shape = B.shape →
      (∃ S, add_matrices A B = .ok S ∧ S.shape = A.shape ∧
        ∀ i j, S.entry i j = A.entry i j + B.entry i j) ∧
      (∃ D, sub_matrices A B = .ok D ∧ D.shape = A.shape ∧
        ∀ i j, D.entry i j = A.entry i j - B.entry i j)) ∧
    (A.shape ≠ B.shape →
      add_matrices A B = .error .shapeMismatch ∧
      sub_matrices A B = .error .shapeMismatch) := by
  constructor
  · intro h
    exact ⟨⟨⟨A.rows, A.cols, fun i j => A.entry i j + B.entry i j⟩,
        by simp [add_matrices, h], rfl, fun i j => rfl⟩,
      ⟨⟨A.rows, A.cols, fun i j => A.entry i j - B.entry i j⟩,
        by simp [sub_matrices, h], rfl, fun i j => rfl⟩⟩
  · intro h
    exact ⟨by simp [add_matrices, h], by simp [sub_matrices, h]⟩

/-- Witness for C2: both branches at concrete inputs. -/
theorem add_sub_matrices_spec_witness :
    ((∃ S, add_matrices demoA demoB = .ok S ∧ S.shape = demoA.shape ∧
        ∀ i j, S.entry i j = demoA.entry i j + demoB.entry i j) ∧
      (∃ D, sub_matrices demoA demoB = .ok D ∧ D.shape = demoA.shape ∧
        ∀ i j, D.entry i j = demoA.entry i j - demoB.entry i j)) ∧
    (add_matrices demoA badB = .error .shapeMismatch ∧
      sub_matrices demoA badB = .error .shapeMismatch) :=
  ⟨(add_sub_matrices_spec demoA demoB).1 (by decide),
   (add_sub_matrices_spec demoA badB).2 (by decide)⟩

/-- C5: for equal shapes, subtracting `B` from `add(A, B)` gives back `A`
element-wise (exactly, hence within any floating tolerance). -/
theorem add_sub_roundtrip (A B : Mat) (h : A.shape = B.shape) :
    ∃ S, add_matrices A B = .ok S ∧
      ∃ D, sub_matrices S B = .ok D ∧ D.shape = A.shape ∧
        ∀ i j, D.entry i j = A.entry i j := by
  refine ⟨⟨A.rows, A.cols, fun i j => A.entry i j + B.entry i j⟩,
    by simp [add_matrices, h], ?_⟩
  have hs : (⟨A.rows, A.cols, fun i j => A.entry i j + B.entry i j⟩ : Mat).shape = B.shape := by
    rw [← h]; rfl
  refine ⟨⟨A.rows, A.cols,
      fun i j => (A.entry i j + B.entry i j) - B.entry i j⟩,
    by simp [sub_matrices, hs], rfl, fun i j => by ring⟩

/-- Witness for C5, at the demo pair. -/
theorem add_sub_roundtrip_witness :
    ∃ S, add_matrices demoA demoB = .ok S ∧
      ∃ D, sub_matrices S demoB = .ok D ∧ D.shape = demoA.shape ∧
        ∀ i j, D.entry i j = demoA.entry i j :=
  add_sub_roundtrip demoA demoB (by decide)

theorem invert_matrix_notSquare (A : Mat) (h : A.rows ≠ A.cols) :
    invert_matrix A = ([], .error .notSquare) := by
  simp [invert_matrix, h]

theorem invert_matrix_square_sing (A : Mat) (h : A.rows = A.cols)
    (hd : detExp A.rows (toSq A) = 0) :
    (invert_matrix A).2 = .error .singularMatrix := by
  simp [invert_matrix, h, hd]

theorem invert_matrix_square_nonsing (A : Mat) (h : A.rows = A.cols)
    (hd : detExp A.rows (toSq A) ≠ 0) :
    (invert_matrix A).2 = .ok (invResult A) := by
  simp [invert_matrix, h, hd]

theorem exists_right_inverse_iff {n : ℕ} (M : Matrix (Fin n) (Fin n) ℚ) :
    (∃ B, M * B = 1) ↔ detExp n M ≠ 0 := by
  constructor
  · rintro ⟨B, hB⟩ h0
    have hdet := congrArg Matrix.det hB
    rw [Matrix.det_mul, Matrix.det_one] at hdet
    rw [detExp_eq] at h0
    rw [h0, zero_mul] at hdet
    exact zero_ne_one hdet
  · intro h0
    exact ⟨invSq M, mul_invSq M h0⟩

theorem detExp_demoA : detExp demoA.rows (toSq demoA) = -2 := by
  show detExp 2 (toSq demoA) = -2
  simp [detExp, toSq, demoA, matOfList, Fin.sum_univ_succ, List.getD]
  norm_num

theorem detExp_singularM : detExp singularM.rows (toSq singularM) = 0 := by
  show detExp 2 (toSq singularM) = 0
  simp [detExp, toSq, singularM, matOfList, Fin.sum_univ_succ, List.getD]

theorem npCond_singularM : npCond (toSq singularM) = ⊤ := by
  rw [npCond, if_pos detExp_singularM]

/-- C3: `invert_matrix` fails with `NotSquare` exactly on non-square inputs;
on square inputs it fails with `SingularMatrix` exactly when the matrix has no
inverse (equivalently, the decomposition's determinant is zero), and otherwise
returns the inverse matrix — never a partial result. -/
theorem invert_matrix_failure_spec (A : Mat) :
    ((invert_matrix A).2 = .error .notSquare ↔ A.rows ≠ A.cols) ∧
    (A.rows = A.cols →
      (((invert_matrix A).2 = .error .singularMatrix) ↔ ¬ ∃ B, toSq A * B = 1) ∧
      ((∃ B, toSq A * B = 1) → (invert_matrix A).2 = .ok (invResult A))) := by
  constructor
  · constructor
    · intro h hsq
      by_cases hd : detExp A.rows (toSq A) = 0
      · rw [invert_matrix_square_sing A hsq hd] at h
        simp at h
      · rw [invert_matrix_square_nonsing A hsq hd] at h
        simp at h
    · intro h
      rw [invert_matrix_notSquare A h]
  · intro hsq
    constructor
    · rw [exists_right_inverse_iff, not_not]
      constructor
      · intro h
        by_contra hd
        rw [invert_matrix_square_nonsing A hsq hd] at h
        simp at h
      · intro hd
        exact invert_matrix_square_sing A hsq hd
    · intro hex
      exact invert_matrix_square_nonsing A hsq ((exists_right_inverse_iff (toSq A)).mp hex)

/-- Witness for C3: the three cases at concrete inputs — a non-square matrix,
a singular square matrix, and the invertible demo matrix. -/
theorem invert_matrix_failure_spec_witness :
    ((invert_matrix badB).2 = .error .notSquare ↔ badB.rows ≠ badB.cols) ∧
    (((invert_matrix singularM).2 = .error .singularMatrix) ↔ ¬ ∃ B, toSq singularM * B = 1) ∧
    (invert_matrix demoA).2 = .ok (invResult demoA) :=
  ⟨(invert_matrix_failure_spec badB).1,
   ((invert_matrix_failure_spec singularM).2 rfl).1,
   ((invert_matrix_failure_spec demoA).2 rfl).2
     ⟨invSq (toSq demoA), mul_invSq (toSq demoA) (by rw [detExp_demoA]; norm_num)⟩⟩

theorem invert_matrix_warns_eq (A : Mat) (hsq : A.rows = A.cols) :
    (invert_matrix A).1 =
      if ((10 ^ 12 : ℚ) : WithTop ℚ) < npCond (toSq A) then [Warning.illConditioned]
      else [] := by
  by_cases hd : detExp A.rows (toSq A) = 0 <;> simp [invert_matrix, hsq, hd]

/-- Counterexample to C4 as stated: the singular matrix `[[1,1],[1,1]]` is
square with infinite condition-number estimate (so it exceeds `1e12`), the
warning is emitted, yet `invert_matrix` does not return an inverse — it fails
with `SingularMatrix`. -/
theorem invert_warning_counterexample :
    singularM.rows = singularM.cols ∧
    ((10 ^ 12 : ℚ) : WithTop ℚ) < npCond (toSq singularM) ∧
    (invert_matrix singularM).1 = [Warning.illConditioned] ∧
    ∀ V, (invert_matrix singularM).2 ≠ .ok V := by
  have hc : ((10 ^ 12 : ℚ) : WithTop ℚ) < npCond (toSq singularM) := by
    rw [npCond_singularM]
    exact WithTop.coe_lt_top _
  refine ⟨rfl, hc, ?_, ?_⟩
  · rw [invert_matrix_warns_eq singularM rfl, if_pos hc]
  · intro V h
    rw [invert_matrix_square_sing singularM rfl detExp_singularM] at h
    simp at h

/-- C4 amended: for every square matrix whose condition-number estimate
exceeds `1e12`, `invert_matrix` emits the non-fatal ill-conditioning warning
on the output channel and still proceeds with the inversion — returning the
inverse when the matrix is nonsingular and failing with `SingularMatrix` when
it is singular; the warning never blocks or aborts the computation. -/
theorem invert_warning_nonfatal (A : Mat) (hsq : A.rows = A.cols)
    (hc : ((10 ^ 12 : ℚ) : WithTop ℚ) < npCond (toSq A)) :
    (invert_matrix A).1 = [Warning.illConditioned] ∧
    (detExp A.rows (toSq A) ≠ 0 → (invert_matrix A).2 = .ok (invResult A)) ∧
    (detExp A.rows (toSq A) = 0 → (invert_matrix A).2 = .error .singularMatrix) :=
  ⟨by rw [invert_matrix_warns_eq A hsq, if_pos hc],
   fun hd => invert_matrix_square_nonsing A hsq hd,
   fun hd => invert_matrix_square_sing A hsq hd⟩

/-- Witness for the amended C4, at the singular matrix (condition estimate
`⊤ > 1e12`): warning emitted, and the singular branch fails as described. -/
theorem invert_warning_nonfatal_witness :
    (invert_matrix singularM).1 = [Warning.illConditioned] ∧
    (invert_matrix singularM).2 = .error .singularMatrix := by
  have h := invert_warning_nonfatal singularM rfl
    (by rw [npCond_singularM]; exact WithTop.coe_lt_top _)
  exact ⟨h.1, h.2.2 detExp_singularM⟩

/-- C10: the condition-number estimate of a singular square matrix is infinite
(hence above the `1e12` threshold), and every `SingularMatrix` failure of
`invert_matrix` is accompanied by the ill-conditioning warning. -/
theorem singular_failure_warned (A : Mat) :
    (A.rows = A.cols → detExp A.rows (toSq A) = 0 → npCond (toSq A) = ⊤) ∧
    ((invert_matrix A).2 = .error .singularMatrix →
      (invert_matrix A).1 = [Warning.illConditioned]) := by
  constructor
  · intro _ hd
    rw [npCond, if_pos hd]
  · intro h
    by_cases hsq : A.rows = A.cols
    · by_cases hd : detExp A.rows (toSq A) = 0
      · have hc : ((10 ^ 12 : ℚ) : WithTop ℚ) < npCond (toSq A) := by
          rw [npCond, if_pos hd]
          exact WithTop.coe_lt_top _
        rw [invert_matrix_warns_eq A hsq, if_pos hc]
      · rw [invert_matrix_square_nonsing A hsq hd] at h
        simp at h
    · rw [invert_matrix_notSquare A hsq] at h
      simp at h

/-- Witness for C10, at the singular matrix `[[1,1],[1,1]]`: its estimate is
`⊤` and its `SingularMatrix` failure carries the warning. -/
theorem singular_failure_warned_witness :
    npCond (toSq singularM) = ⊤ ∧
    (invert_matrix singularM).1 = [Warning.illConditioned] :=
  ⟨(singular_failure_warned singularM).1 rfl detExp_singularM,
   (singular_failure_warned singularM).2
     (invert_matrix_square_sing singularM rfl detExp_singularM)⟩

/-- C6: when `invert_matrix` succeeds on a square matrix, every entry of the
product `A · invert(A)` is within `1e-9` of the identity matrix of matching
size (in the exact model the product is the identity, so the distance is 0). -/
theorem invert_mul_identity (A V : Mat) (hsq : A.rows = A.cols)
    (hV : (invert_matrix A).2 = .ok V) :
    ∃ C, mul_matrices A V = .ok C ∧ C.rows = A.rows ∧ C.cols = A.rows ∧
      ∀ i j, i < A.rows → j < A.rows →
        |C.entry i j - (if i = j then 1 else 0)| ≤ 1 / 10 ^ 9 := by
  have hd : detExp A.rows (toSq A) ≠ 0 := by
    intro hd0
    rw [invert_matrix_square_sing A hsq hd0] at hV
    simp at hV
  rw [invert_matrix_square_nonsing A hsq hd] at hV
  injection hV with hVeq
  subst hVeq
  have hcols : A.cols = (invResult A).rows := hsq.symm
  have hmul : mul_matrices A (invResult A) = .ok ⟨A.rows, (invResult A).cols,
      fun i j => ∑ k ∈ Finset.range A.cols, A.entry i k * (invResult A).entry k j⟩ := by
    simp only [mul_matrices]
    rw [if_pos hcols]
  refine ⟨_, hmul, rfl, rfl, ?_⟩
  intro i j hi hj
  show |(∑ k ∈ Finset.range A.cols, A.entry i k * (invResult A).entry k j) -
      (if i = j then 1 else 0)| ≤ 1 / 10 ^ 9
  have key : (∑ k ∈ Finset.range A.cols, A.entry i k * (invResult A).entry k j)
      = (toSq A * invSq (toSq A)) ⟨i, hi⟩ ⟨j, hj⟩ := by
    rw [Matrix.mul_apply]
    conv_lhs => rw [← hsq]
    rw [← Fin.sum_univ_eq_sum_range]
    apply Finset.sum_congr rfl
    intro k _
    congr 1
    show (invResult A).entry ↑k j = invSq (toSq A) k ⟨j, hj⟩
    simp only [invResult]
    rw [dif_pos ⟨k.isLt, hj⟩]
  rw [key, mul_invSq _ hd, Matrix.one_apply]
  by_cases hij : i = j
  · subst hij
    simp
  · rw [if_neg (by simp [Fin.mk.injEq, hij]), if_neg hij]
    norm_num

/-- Witness for C6, at the invertible demo matrix. -/
theorem invert_mul_identity_witness :
    ∃ C, mul_matrices demoA (invResult demoA) = .ok C ∧ C.rows = demoA.rows ∧
      C.cols = demoA.rows ∧
      ∀ i j, i < demoA.rows → j < demoA.rows →
        |C.entry i j - (if i = j then 1 else 0)| ≤ 1 / 10 ^ 9 :=
  invert_mul_identity demoA (invResult demoA) rfl
    (invert_matrix_square_nonsing demoA rfl (by rw [detExp_demoA]; norm_num))

/-- C7: the demo scenario of `main` — on `A=[[1,2],[3,4]]`, `B=[[5,6],[7,8]]`
the four operations return `[[6,8],[10,12]]`, `[[-4,-4],[-4,-4]]`,
`[[19,22],[43,50]]` and `[[-2,1],[1.5,-0.5]]` respectively. -/
theorem demo_scenario :
    (∃ S, add_matrices demoA demoB = .ok S ∧ matEqP S (matOfList [[6, 8], [10, 12]])) ∧
    (∃ D, sub_matrices demoA demoB = .ok D ∧ matEqP D (matOfList [[-4, -4], [-4, -4]])) ∧
    (∃ P, mul_matrices demoA demoB = .ok P ∧ matEqP P (matOfList [[19, 22], [43, 50]])) ∧
    (∃ V, (invert_matrix demoA).2 = .ok V ∧
      matEqP V (matOfList [[-2, 1], [3 / 2, -1 / 2]])) := by
  refine ⟨⟨_, rfl, rfl, rfl, ?_⟩, ⟨_, rfl, rfl, rfl, ?_⟩, ⟨_, rfl, rfl, rfl, ?_⟩,
    ⟨invResult demoA,
      invert_matrix_square_nonsing demoA rfl (by rw [detExp_demoA]; norm_num),
      rfl, rfl, ?_⟩⟩ <;>
  · intro i hi j hj
    have hi' : i < 2 := hi
    have hj' : j < 2 := hj
    interval_cases i <;> interval_cases j <;>
      (simp [demoA, demoB, matOfList, invResult, invSq, adjExp, detExp, toSq,
        Matrix.smul_apply, Fin.sum_univ_succ, Matrix.updateRow_apply, Pi.single_apply,
        Matrix.submatrix, Finset.filter_singleton, Fin.ext_iff, Finset.sum_range_succ,
        List.getD]; norm_num)

theorem foldl_float_eq_filterMap (toks : List (List Char)) :
    ∀ acc : List ℚ,
      toks.foldl (fun nums p =>
        match pyFloat? p with
        | some x => nums ++ [x]
        | none => nums) acc = acc ++ toks.filterMap pyFloat? := by
  induction toks with
  | nil =>
    intro acc
    simp
  | cons t ts ih =>
    intro acc
    rw [List.foldl_cons, List.filterMap_cons]
    cases h : pyFloat? t with
    | none =>
      simp only [h]
      rw [ih]
    | some x =>
      simp only [h]
      rw [ih]
      simp

theorem pySplitAux_map (p : Char → Bool) (f : Char → Char) :
    ∀ l acc : List Char,
      pySplitAux p (l.map f) (acc.map f) =
        (pySplitAux (fun c => p (f c)) l acc).map (List.map f) := by
  intro l
  induction l with
  | nil =>
    intro acc
    simp only [List.map_nil, pySplitAux]
    by_cases h : acc = []
    · subst h
      simp
    · have h2 : acc.map f ≠ [] := by simpa [List.map_eq_nil_iff] using h
      rw [if_neg h2, if_neg h]
      simp [List.map_reverse]
  | cons c rest ih =>
    intro acc
    simp only [List.map_cons, pySplitAux]
    by_cases hp : p (f c)
    · rw [if_pos hp, if_pos hp]
      by_cases h : acc = []
      · subst h
        rw [List.map_nil, if_pos rfl, if_pos rfl]
        simpa using ih []
      · have h2 : acc.map f ≠ [] := by simpa [List.map_eq_nil_iff] using h
        rw [if_neg h2, if_neg h, List.map_cons, List.map_reverse]
        congr 1
        simpa using ih []
    · rw [if_neg hp, if_neg hp]
      simpa using ih (c :: acc)

theorem pySplitAux_sep_free (p : Char → Bool) :
    ∀ l acc : List Char, (∀ c ∈ acc, p c = false) →
      ∀ t ∈ pySplitAux p l acc, ∀ c ∈ t, p c = false := by
  intro l
  induction l with
  | nil =>
    intro acc hacc t ht c hc
    by_cases h : acc = []
    · simp [pySplitAux, h] at ht
    · rw [pySplitAux, if_neg h] at ht
      simp only [List.mem_singleton] at ht
      subst ht
      exact hacc c (List.mem_reverse.mp hc)
  | cons d rest ih =>
    intro acc hacc t ht c hc
    by_cases hp : p d
    · by_cases h : acc = []
      · rw [pySplitAux, if_pos hp, if_pos h] at ht
        exact ih [] (by simp) t ht c hc
      · rw [pySplitAux, if_pos hp, if_neg h] at ht
        rcases List.mem_cons.mp ht with h1 | h1
        · subst h1
          exact hacc c (List.mem_reverse.mp hc)
        · exact ih [] (by simp) t h1 c hc
    · rw [pySplitAux, if_neg hp] at ht
      refine ih (d :: acc) ?_ t ht c hc
      intro x hx
      rcases List.mem_cons.mp hx with h1 | h1
      · subst h1
        simpa using hp
      · exact hacc x h1

theorem sep_pred_eq (c : Char) :
    pyIsSpace (if c = ',' then ' ' else c) = specSplitSep c := by
  by_cases h : c = ','
  · subst h
    decide
  · rw [if_neg h, specSplitSep]
    have hb : (c == ',') = false := by
      simpa using h
    rw [hb, Bool.false_or]

theorem parse_eq_spec_tokens (line : List Char) :
    parse_numbers_from_line line = (pySplit specSplitSep line).filterMap pyFloat? := by
  rw [parse_numbers_from_line, foldl_float_eq_filterMap, List.nil_append]
  congr 1
  rw [pySplit, pySplit]
  have hmap := pySplitAux_map pyIsSpace (fun c => if c = ',' then ' ' else c) line []
  simp only [List.map_nil] at hmap
  rw [hmap]
  have hpred : (fun c => pyIsSpace (if c = ',' then ' ' else c)) = specSplitSep := by
    funext c
    exact sep_pred_eq c
  rw [hpred]
  have hfree := pySplitAux_sep_free specSplitSep line [] (by simp)
  conv_rhs => rw [← List.map_id (pySplitAux specSplitSep line [])]
  apply List.map_congr_left
  intro t ht
  show List.map _ t = id t
  have hid : ∀ c ∈ t, (if c = ',' then ' ' else c) = id c := by
    intro c hc
    have hcf := hfree t ht c hc
    have hc' : c ≠ ',' := by
      intro e
      subst e
      simp [specSplitSep] at hcf
    simp [hc']
  rw [List.map_congr_left hid, List.map_id]
  rfl

/-- C8: parsing the line `"1,2,3 4 5,6"` yields exactly `[1,2,3,4,5,6]`; and
in general the parser's output is exactly the numeric values of the tokens
obtained by splitting the line on whitespace and commas, kept in input order,
with the non-numeric tokens silently dropped. -/
theorem parse_line_spec :
    parse_numbers_from_line ("1,2,3 4 5,6".toList) = [1, 2, 3, 4, 5, 6] ∧
    ∀ line, parse_numbers_from_line line =
      (pySplit specSplitSep line).filterMap pyFloat? := by
  constructor
  · simp +decide [parse_numbers_from_line, pySplit, pySplitAux, pyIsSpace, pyFloat?,
      splitSign, natOfDigits, String.toList]
  · exact parse_eq_spec_tokens

/-- C9: `parse_numbers_from_line` is total — on every input line, the empty
one included, it returns the (possibly empty) list of the numeric values of
the line's tokens, at most one value per token, and never an error. -/
theorem parse_line_total (line : List Char) :
    parse_numbers_from_line [] = [] ∧
    parse_numbers_from_line line =
      (pySplit pyIsSpace (line.map fun c => if c = ',' then ' ' else c)).filterMap pyFloat? ∧
    (parse_numbers_from_line line).length ≤
      (pySplit pyIsSpace (line.map fun c => if c = ',' then ' ' else c)).length := by
  refine ⟨rfl, ?_, ?_⟩
  · rw [parse_numbers_from_line, foldl_float_eq_filterMap, List.nil_append]
  · rw [parse_numbers_from_line, foldl_float_eq_filterMap, List.nil_append]
    exact List.length_filterMap_le _ _
